import Mathlib

/-!
Verification of the rule-validation engine of the Immobile extension
(src/code/js/options.js) against its natural-language specification.

Strings are modelled as lists of characters.  The JavaScript regular
expressions used by the source are embedded faithfully: the `.` atom
matches any character except the four ECMAScript line terminators,
`(.+)` after `//` is greedy, and `(.+?)` before `/` is lazy with the
regex engine scanning match start positions left to right.
-/

namespace Immobile

/-- ECMAScript line terminators: LF, CR, LS, PS.  The regex atom `.`
matches every character except these. -/
def isLineTerm (c : Char) : Bool :=
  c == '\n' || c == '\r' || c.toNat == 0x2028 || c.toNat == 0x2029

/-- ECMAScript whitespace class `\s` (used by the `/\S/` test in
`hasChars` and by `String.prototype.trim`). -/
def isJsWhitespace (c : Char) : Bool :=
  c == '\t' || c == '\n' || c.toNat == 0x0b || c.toNat == 0x0c ||
  c == '\r' || c == ' ' || c.toNat == 0xa0 || c.toNat == 0x1680 ||
  (0x2000 ≤ c.toNat && c.toNat ≤ 0x200a) || c.toNat == 0x2028 ||
  c.toNat == 0x2029 || c.toNat == 0x202f || c.toNat == 0x205f ||
  c.toNat == 0x3000 || c.toNat == 0xfeff

/-- Greedy `.+`: the maximal run of non-line-terminator characters. -/
def takeNonTerm : List Char → List Char
  | [] => []
  | c :: cs => if isLineTerm c then [] else c :: takeNonTerm cs

/-- The match of the regex `\/\/(.+)` (capture group 1): scanning left to
right for a position holding two slashes followed by at least one
non-line-terminator character; the capture is the greedy run after the
two slashes.  Embeds the first `exec` of `getDomain`. -/
def firstMatchNoProto : List Char → Option (List Char)
  | c :: d :: e :: rest =>
    if c == '/' && d == '/' && !(isLineTerm e) then some (e :: takeNonTerm rest)
    else firstMatchNoProto (d :: e :: rest)
  | _ => none

/-- Anchored match of `(.+?)\/` at one start position: the shortest
non-empty run of non-line-terminator characters followed by a slash. -/
def tryAt : List Char → Option (List Char)
  | [] => none
  | c :: cs =>
    if isLineTerm c then none
    else if cs.head? = some '/' then some [c]
    else
      match tryAt cs with
      | some r => some (c :: r)
      | none => none

/-- The match of the lazy regex `(.+?)\/` (capture group 1), scanning
start positions left to right.  Embeds the second `exec` of
`getDomain`. -/
def firstMatchNoPath : List Char → Option (List Char)
  | [] => none
  | c :: cs =>
    match tryAt (c :: cs) with
    | some r => some r
    | none => firstMatchNoPath cs

/-- `getDomain` from options.js.  Note the faithful fallback: when the
path regex fails to match, the function returns the original `url`,
not the protocol-stripped intermediate string. -/
def getDomain (url : List Char) : List Char :=
  let noProtocol :=
    match firstMatchNoProto url with
    | some s => s
    | none => url
  match firstMatchNoPath noProtocol with
  | some s => s
  | none => url

/-- `hasChars` from options.js: the `/\S/` test. -/
def hasChars (s : List Char) : Bool :=
  s.any (fun c => !(isJsWhitespace c))

/-- Decimal value of a run of digit characters (what `parseInt(run, 10)`
computes on a digit-only run). -/
def digitsToNat (ds : List Char) : Nat :=
  ds.foldl (fun acc c => 10 * acc + (c.toNat - '0'.toNat)) 0

/-- `getButtonIndex` from options.js: `buttonId.match(/([0-9])+/)[0]`
is the first maximal run of ASCII digits; no digits means the match is
`null`, the indexing throws a TypeError and the catch returns null. -/
def getButtonIndex (buttonId : List Char) : Option Nat :=
  let run := (buttonId.dropWhile (fun c => !(c.isDigit))).takeWhile (fun c => c.isDigit)
  if run.isEmpty then none else some (digitsToNat run)

/-- `String.prototype.replace` with a plain-string pattern and empty
replacement: remove the first occurrence of `pat` (an empty pattern
matches at position 0 and removes nothing). -/
def replaceFirst (l pat : List Char) : List Char :=
  match l with
  | [] => []
  | c :: cs =>
    if pat.isPrefixOf (c :: cs) then (c :: cs).drop pat.length
    else c :: replaceFirst cs pat

/-- The period-counting loop of `getSubdomainDifference`. -/
def countDots (l : List Char) : Nat :=
  (l.filter (fun c => c == '.')).length

/-- `getSubdomainDifference` from options.js: normalize both arguments
with `getDomain`, let the destination be `longer` on ties, remove the
first occurrence of `shorter` from `longer`, return 0 when the removal
changed nothing, else the number of remaining periods. -/
def getSubdomainDifference (source destination : List Char) : Nat :=
  let s := getDomain source
  let d := getDomain destination
  let longer := if d.length ≥ s.length then d else s
  let shorter := if d.length ≥ s.length then s else d
  let postReplace := replaceFirst longer shorter
  if postReplace.length = longer.length then 0
  else countDots postReplace

/-- A redirection rule: `{src, dest, regex}`.  The `regex` field is an
`Option` so that an absent key can be distinguished from a stored
boolean. -/
structure Rule where
  src : List Char
  dest : List Char
  regex : Option Bool
  deriving DecidableEq

/-- Reason component of a rejection, per the spec's ValidationOutcome. -/
inductive RejectReason where
  | empty
  | duplicateSource
  | cycle
  deriving DecidableEq

/-- Result of one validation call, per the spec's ValidationOutcome. -/
inductive ValidationOutcome where
  | accepted
  | acceptedWithAdvisory (delta : Nat)
  | rejected (reason : RejectReason)
  deriving DecidableEq

/-- `isValidInput` from options.js, with each early `return false`
mapped to the rejection reason of the branch's notification and the
advisory popup mapped to the advisory variant. -/
def isValidInput (source destination : List Char) (rules : List Rule) : ValidationOutcome :=
  if !(hasChars source) || !(hasChars destination) then .rejected .empty
  else if rules.any (fun r => r.src == source) then .rejected .duplicateSource
  else if rules.any (fun r => r.dest == source) then .rejected .cycle
  else if getSubdomainDifference source destination > 0 then
    .acceptedWithAdvisory (getSubdomainDifference source destination)
  else .accepted

/-- `String.prototype.trim`, as applied by `storeRule` before a rule is
persisted. -/
def jsTrim (s : List Char) : List Char :=
  ((s.dropWhile isJsWhitespace).reverse.dropWhile isJsWhitespace).reverse

/-! ## Spec-side definitions

The following definitions are written from the specification's words,
to be compared with the source-derived definitions above. -/

/-- Everything after the first occurrence of the two-character sequence
`//`, or nothing when no such occurrence exists (spec's wording for
`stripProtocol`). -/
def afterDoubleSlash : List Char → Option (List Char)
  | [] => none
  | c :: cs =>
    if c = '/' then
      match cs with
      | d :: ds => if d = '/' then some ds else afterDoubleSlash cs
      | [] => none
    else afterDoubleSlash cs

/-- Spec's `stripProtocol`: everything after the first `//` when present,
the input unchanged otherwise. -/
def stripProtocolSpec (l : List Char) : List Char :=
  match afterDoubleSlash l with
  | some r => r
  | none => l

/-- Everything before the first `/`, or nothing when the input contains
no `/` (spec's wording for `stripPath`). -/
def beforeSlash : List Char → Option (List Char)
  | [] => none
  | c :: cs =>
    if c = '/' then some []
    else
      match beforeSlash cs with
      | some r => some (c :: r)
      | none => none

/-- Spec's `stripPath`: everything before the first `/` when the input
contains one, the input unchanged otherwise. -/
def stripPathSpec (l : List Char) : List Char :=
  match beforeSlash l with
  | some r => r
  | none => l

/-- Everything before the first `/` that is preceded by at least one
character (the prefix always keeps the leading character, whatever it
is); nothing when no such `/` exists. -/
def beforePositiveSlash : List Char → Option (List Char)
  | [] => none
  | c :: cs =>
    match beforeSlash cs with
    | some r => some (c :: r)
    | none => none

/-- The subdomain-delta reference computation, from the claim's words:
normalize with `getDomain`, pick a string of greater or equal length as
`longer` (here the first argument wins ties, the opposite of the
source's tie-break), remove the first occurrence of `shorter`, return 0
when the length is unchanged, else count periods. -/
def subdomainDeltaSpec (a b : List Char) : Nat :=
  let x := getDomain a
  let y := getDomain b
  let longer := if x.length ≥ y.length then x else y
  let shorter := if x.length ≥ y.length then y else x
  let residue := replaceFirst longer shorter
  if residue.length = longer.length then 0
  else countDots residue

/-- The validation algorithm as the claim states it: first failing
check wins, in the order Empty, DuplicateSource, Cycle, then the
advisory on a positive delta. -/
def validateSpec (source destination : List Char) (rules : List Rule) : ValidationOutcome :=
  if source.all isJsWhitespace || destination.all isJsWhitespace then .rejected .empty
  else if rules.any (fun r => r.src == source) then .rejected .duplicateSource
  else if rules.any (fun r => r.dest == source) then .rejected .cycle
  else if subdomainDeltaSpec source destination > 0 then
    .acceptedWithAdvisory (subdomainDeltaSpec source destination)
  else .accepted

/-! ## Helper lemmas -/

/-- Negation of the `/\S/` test: a string fails `hasChars` exactly when
every character is whitespace. -/
lemma not_hasChars_eq (s : List Char) : (!(hasChars s)) = s.all isJsWhitespace := by
  induction s with
  | nil => rfl
  | cons c cs ih =>
    simp only [hasChars, List.any_cons, List.all_cons, Bool.not_or, Bool.not_not] at *
    rw [ih]

/-- A pattern longer than the string never occurs in it. -/
lemma replaceFirst_of_length_lt (l pat : List Char) (h : l.length < pat.length) :
    replaceFirst l pat = l := by
  induction l with
  | nil => rfl
  | cons c cs ih =>
    unfold replaceFirst
    have hnp : ¬(pat.isPrefixOf (c :: cs) = true) := fun hp =>
      absurd (List.IsPrefix.length_le ( List.isPrefixOf_iff_prefix.mp hp)) (Nat.not_le.mpr h)
    rw [if_neg hnp, ih (Nat.lt_of_succ_lt h)]

/-- Removing a pattern of the same length as the string empties the
string exactly when they are equal, and otherwise does nothing. -/
lemma replaceFirst_of_length_eq (l pat : List Char) (h : pat.length = l.length) :
    replaceFirst l pat = if pat = l then [] else l := by
  cases l with
  | nil =>
    have hp : pat = [] := List.length_eq_zero.mp h
    subst hp
    rfl
  | cons c cs =>
    unfold replaceFirst
    by_cases hp : pat.isPrefixOf (c :: cs) = true
    · have hpl : pat = c :: cs := ( List.isPrefixOf_iff_prefix.mp hp).eq_of_length h
      rw [if_pos hp, if_pos hpl, hpl, List.drop_length]
    · have hne : pat ≠ c :: cs := fun he =>
        hp ( List.isPrefixOf_iff_prefix.mpr (he ▸ List.prefix_refl pat))
      rw [if_neg hp, if_neg hne,
        replaceFirst_of_length_lt cs pat (by rw [h]; exact Nat.lt_succ_self _)]

/-- The residual-period count is insensitive to the longer/shorter roles
when the two strings have equal length. -/
lemma residue_comm (x y : List Char) (h : x.length = y.length) :
    (if (replaceFirst y x).length = y.length then 0 else countDots (replaceFirst y x)) =
      (if (replaceFirst x y).length = x.length then 0 else countDots (replaceFirst x y)) := by
  by_cases hxy : x = y
  · subst hxy; rfl
  · rw [replaceFirst_of_length_eq y x h, replaceFirst_of_length_eq x y h.symm,
      if_neg hxy, if_neg (Ne.symm hxy), if_pos rfl, if_pos rfl]

/-- The source's tie-break (destination wins) and the reference
computation's tie-break (first argument wins) give the same delta. -/
lemma delta_core_eq (x y : List Char) :
    (let longer := if y.length ≥ x.length then y else x
     let shorter := if y.length ≥ x.length then x else y
     let postReplace := replaceFirst longer shorter
     if postReplace.length = longer.length then 0 else countDots postReplace) =
      (let longer := if x.length ≥ y.length then x else y
       let shorter := if x.length ≥ y.length then y else x
       let residue := replaceFirst longer shorter
       if residue.length = longer.length then 0 else countDots residue) := by
  rcases Nat.lt_trichotomy x.length y.length with h | h | h
  · have h1 : x.length ≤ y.length := Nat.le_of_lt h
    have h2 : ¬ y.length ≤ x.length := Nat.not_le.mpr h
    simp only [ge_iff_le, if_pos h1, if_neg h2]
  · have h1 : x.length ≤ y.length := Nat.le_of_eq h
    have h2 : y.length ≤ x.length := Nat.le_of_eq h.symm
    simp only [ge_iff_le, if_pos h1, if_pos h2]
    exact residue_comm x y h
  · have h1 : y.length ≤ x.length := Nat.le_of_lt h
    have h2 : ¬ x.length ≤ y.length := Nat.not_le.mpr h
    simp only [ge_iff_le, if_pos h1, if_neg h2]

/-- The source's subdomain delta equals the reference computation. -/
lemma getSubdomainDifference_eq_spec (a b : List Char) :
    getSubdomainDifference a b = subdomainDeltaSpec a b :=
  delta_core_eq (getDomain a) (getDomain b)

/-! ## Claims -/

/-- C1: validate applies its checks in strict order with the first
failing check determining the outcome (Empty, then DuplicateSource,
then Cycle, then the positive-delta advisory, then Accepted); in
particular the empty candidate is Rejected(Empty) and a whitespace-only
source yields Rejected(Empty) regardless of the other checks. -/
theorem C1_validate_order (s d : List Char) (rules : List Rule) :
    isValidInput s d rules = validateSpec s d rules ∧
    isValidInput ([] : List Char) ([] : List Char) ([] : List Rule) =
      ValidationOutcome.rejected RejectReason.empty ∧
    (s.all isJsWhitespace = true →
      isValidInput s d rules = ValidationOutcome.rejected RejectReason.empty) := by
  refine ⟨?_, by decide, ?_⟩
  · unfold isValidInput validateSpec
    rw [not_hasChars_eq s, not_hasChars_eq d, getSubdomainDifference_eq_spec s d]
  · intro hws
    have hfc : hasChars s = false := by
      have hn := not_hasChars_eq s
      rw [hws] at hn
      cases hcs : hasChars s
      · rfl
      · rw [hcs] at hn
        exact absurd hn (by decide)
    unfold isValidInput
    rw [hfc]
    rfl

/-- Witness for C1 at a whitespace-only source. -/
theorem C1_validate_order_witness :
    ([' '].all isJsWhitespace = true) ∧
      isValidInput [' '] (("x").data) ([] : List Rule) =
        ValidationOutcome.rejected RejectReason.empty :=
  ⟨by decide, (C1_validate_order [' '] (("x").data) []).2.2 (by decide)⟩

/-- C3: the subdomain delta equals the reference computation (normalize
with getDomain, remove the shorter from the longer, count remaining
periods), and the quoted examples report deltas 1, 1, 0 and 5. -/
theorem C3_subdomain_delta :
    (∀ a b : List Char, getSubdomainDifference a b = subdomainDeltaSpec a b) ∧
    isValidInput (("one.nickschorr.com").data) (("nickschorr.com").data) [] =
      ValidationOutcome.acceptedWithAdvisory 1 ∧
    isValidInput (("nickschorr.com").data) (("one.nickschorr.com").data) [] =
      ValidationOutcome.acceptedWithAdvisory 1 ∧
    getSubdomainDifference (("one.x.com").data) (("two.x.com").data) = 0 ∧
    isValidInput (("one.two.three.four.five.nickschorr.com").data)
        (("nickschorr.com").data) [] = ValidationOutcome.acceptedWithAdvisory 5 := by
  exact ⟨getSubdomainDifference_eq_spec, by decide, by decide, by decide, by decide⟩

/-- C9: the subdomain delta is symmetric in its two arguments. -/
theorem C9_delta_symmetric (a b : List Char) :
    getSubdomainDifference a b = getSubdomainDifference b a :=
  (getSubdomainDifference_eq_spec a b).trans rfl

/-- C4 (counterexample): a duplicate source alone does not force
Rejected(DuplicateSource) — with an empty destination the emptiness
check fires first, so the outcome is Rejected(Empty). -/
theorem C4_counterexample :
    ([Rule.mk (("a").data) (("b").data) (some false)]).any
        (fun r => r.src == (("a").data)) = true ∧
      isValidInput (("a").data) ([] : List Char)
          [Rule.mk (("a").data) (("b").data) (some false)] ≠
        ValidationOutcome.rejected RejectReason.duplicateSource ∧
      isValidInput (("a").data) ([] : List Char)
          [Rule.mk (("a").data) (("b").data) (some false)] =
        ValidationOutcome.rejected RejectReason.empty := by
  decide

/-- C4 (amended): when source and destination both pass the emptiness
check, an existing rule whose src equals the candidate source by raw
string equality forces Rejected(DuplicateSource), for every such
destination. -/
theorem C4_duplicate_amended (s d : List Char) (rules : List Rule)
    (hs : hasChars s = true) (hd : hasChars d = true)
    (hdup : rules.any (fun r => r.src == s) = true) :
    isValidInput s d rules = ValidationOutcome.rejected RejectReason.duplicateSource := by
  unfold isValidInput
  rw [hs, hd, hdup]
  rfl

/-- Witness for C4's amended theorem. -/
theorem C4_duplicate_amended_witness :
    isValidInput (("a").data) (("b").data) [Rule.mk (("a").data) (("c").data) none] =
      ValidationOutcome.rejected RejectReason.duplicateSource :=
  C4_duplicate_amended _ _ _ (by decide) (by decide) (by decide)

/-- C5 (counterexample): an existing rule whose dest equals the
candidate source does not force Rejected(Cycle) for every destination —
with an empty destination the emptiness check fires first, even though
no existing rule's src matches. -/
theorem C5_counterexample :
    ([Rule.mk (("x").data) (("a").data) none]).any
        (fun r => r.dest == (("a").data)) = true ∧
      ([Rule.mk (("x").data) (("a").data) none]).any
        (fun r => r.src == (("a").data)) = false ∧
      isValidInput (("a").data) ([] : List Char)
          [Rule.mk (("x").data) (("a").data) none] ≠
        ValidationOutcome.rejected RejectReason.cycle ∧
      isValidInput (("a").data) ([] : List Char)
          [Rule.mk (("x").data) (("a").data) none] =
        ValidationOutcome.rejected RejectReason.empty := by
  decide

/-- C5 (amended): when source and destination both pass the emptiness
check and no existing rule's src equals the candidate source, an
existing rule whose dest equals the candidate source by raw string
equality forces Rejected(Cycle), for every such destination.  Detection
is raw-string 2-hop only: a chain that returns to the source at the
domain level (existing rule b.com -> http://a.com/ against candidate
a.com -> b.com) is accepted, although the rule's destination normalizes
to the candidate's source domain. -/
theorem C5_cycle_amended :
    (∀ (s d : List Char) (rules : List Rule),
        hasChars s = true → hasChars d = true →
        rules.any (fun r => r.src == s) = false →
        rules.any (fun r => r.dest == s) = true →
        isValidInput s d rules = ValidationOutcome.rejected RejectReason.cycle) ∧
      isValidInput (("a.com").data) (("b.com").data)
          [Rule.mk (("b.com").data) (("http://a.com/").data) (some false)] =
        ValidationOutcome.accepted ∧
      getDomain (("http://a.com/").data) = getDomain (("a.com").data) := by
  refine ⟨?_, by decide, by decide⟩
  intro s d rules hs hd hnd hc
  unfold isValidInput
  rw [hs, hd, hnd, hc]
  rfl

/-- Witness for C5's amended theorem. -/
theorem C5_cycle_amended_witness :
    isValidInput (("a").data) (("b").data) [Rule.mk (("x").data) (("a").data) none] =
      ValidationOutcome.rejected RejectReason.cycle :=
  (C5_cycle_amended).1 _ _ _ (by decide) (by decide) (by decide) (by decide)

/-- C7: the duplicate and cycle checks compare raw, untrimmed strings.
For a trimmed stored source s and a candidate that is s with added
leading or trailing whitespace (and raw-equal to no stored src or
dest), validate never answers Rejected(DuplicateSource) or
Rejected(Cycle). -/
theorem C7_padded_duplicate_undetected (s padL padR d : List Char) (rules : List Rule)
    (_hL : ∀ c ∈ padL, isJsWhitespace c = true)
    (_hR : ∀ c ∈ padR, isJsWhitespace c = true)
    (_htrim : jsTrim s = s)
    (_hstored : rules.any (fun r => r.src == s) = true)
    (hnsrc : rules.any (fun r => r.src == (padL ++ s ++ padR)) = false)
    (hndest : rules.any (fun r => r.dest == (padL ++ s ++ padR)) = false) :
    isValidInput (padL ++ s ++ padR) d rules ≠
        ValidationOutcome.rejected RejectReason.duplicateSource ∧
      isValidInput (padL ++ s ++ padR) d rules ≠
        ValidationOutcome.rejected RejectReason.cycle := by
  unfold isValidInput
  rw [hnsrc, hndest]
  constructor <;> split_ifs <;> simp_all

/-- Witness for C7 at a space-padded duplicate of a stored rule. -/
theorem C7_padded_duplicate_undetected_witness :
    isValidInput ([' '] ++ ("a").data ++ []) (("b").data)
        [Rule.mk (("a").data) (("c").data) (some false)] ≠
      ValidationOutcome.rejected RejectReason.duplicateSource ∧
    isValidInput ([' '] ++ ("a").data ++ []) (("b").data)
        [Rule.mk (("a").data) (("c").data) (some false)] ≠
      ValidationOutcome.rejected RejectReason.cycle :=
  C7_padded_duplicate_undetected (("a").data) [' '] [] (("b").data)
    [Rule.mk (("a").data) (("c").data) (some false)]
    (by decide) (by decide) (by decide) (by decide) (by decide) (by decide)

/-- C8: the engine operations are total — every input yields a defined
domain, a defined delta, one of the five validation outcomes (with a
positive delta in the advisory case), and a defined optional index. -/
theorem C8_total (s d id : List Char) (rules : List Rule) :
    (∃ t, getDomain s = t) ∧ (∃ n, getSubdomainDifference s d = n) ∧
      (isValidInput s d rules = ValidationOutcome.accepted ∨
        (∃ k, 0 < k ∧ isValidInput s d rules = ValidationOutcome.acceptedWithAdvisory k) ∨
        isValidInput s d rules = ValidationOutcome.rejected RejectReason.empty ∨
        isValidInput s d rules = ValidationOutcome.rejected RejectReason.duplicateSource ∨
        isValidInput s d rules = ValidationOutcome.rejected RejectReason.cycle) ∧
      (getButtonIndex id = none ∨ ∃ n, getButtonIndex id = some n) := by
  refine ⟨⟨_, rfl⟩, ⟨_, rfl⟩, ?_, ?_⟩
  · unfold isValidInput
    split_ifs with h1 h2 h3 h4
    · exact Or.inr (Or.inr (Or.inl rfl))
    · exact Or.inr (Or.inr (Or.inr (Or.inl rfl)))
    · exact Or.inr (Or.inr (Or.inr (Or.inr rfl)))
    · exact Or.inr (Or.inl ⟨_, h4, rfl⟩)
    · exact Or.inl rfl
  · cases h : getButtonIndex id with
    | none => exact Or.inl rfl
    | some n => exact Or.inr ⟨n, rfl⟩

/-- Rule lists with the same (src, dest) projections agree on any
src-membership test. -/
lemma any_src_eq_of_map_eq (s : List Char) : ∀ l1 l2 : List Rule,
    l1.map (fun r => (r.src, r.dest)) = l2.map (fun r => (r.src, r.dest)) →
    l1.any (fun r => r.src == s) = l2.any (fun r => r.src == s) := by
  intro l1
  induction l1 with
  | nil =>
    intro l2 h
    cases l2 with
    | nil => rfl
    | cons b u => simp at h
  | cons a t ih =>
    intro l2 h
    cases l2 with
    | nil => simp at h
    | cons b u =>
      simp only [List.map_cons, List.cons.injEq, Prod.mk.injEq] at h
      simp only [List.any_cons, h.1.1, ih u h.2]

/-- Rule lists with the same (src, dest) projections agree on any
dest-membership test. -/
lemma any_dest_eq_of_map_eq (s : List Char) : ∀ l1 l2 : List Rule,
    l1.map (fun r => (r.src, r.dest)) = l2.map (fun r => (r.src, r.dest)) →
    l1.any (fun r => r.dest == s) = l2.any (fun r => r.dest == s) := by
  intro l1
  induction l1 with
  | nil =>
    intro l2 h
    cases l2 with
    | nil => rfl
    | cons b u => simp at h
  | cons a t ih =>
    intro l2 h
    cases l2 with
    | nil => simp at h
    | cons b u =>
      simp only [List.map_cons, List.cons.injEq, Prod.mk.injEq] at h
      simp only [List.any_cons, h.1.2, ih u h.2]

/-- C10: the validation outcome inspects only the src and dest fields
of the existing rules — two lists with identical (src, dest) pairs give
identical outcomes whatever their regex fields hold. -/
theorem C10_regex_irrelevant (s d : List Char) (rules1 rules2 : List Rule)
    (h : rules1.map (fun r => (r.src, r.dest)) = rules2.map (fun r => (r.src, r.dest))) :
    isValidInput s d rules1 = isValidInput s d rules2 := by
  unfold isValidInput
  rw [any_src_eq_of_map_eq s rules1 rules2 h, any_dest_eq_of_map_eq s rules1 rules2 h]

/-- Witness for C10: flipping presence and value of the regex field. -/
theorem C10_regex_irrelevant_witness :
    isValidInput (("a").data) (("b").data) [Rule.mk (("x").data) (("y").data) (some true)] =
      isValidInput (("a").data) (("b").data) [Rule.mk (("x").data) (("y").data) none] :=
  C10_regex_irrelevant _ _ _ _ (by decide)

/-- Leading non-digit characters are skipped by the digit scan. -/
lemma dropWhile_nondigit_append (pre l : List Char)
    (hpre : ∀ c ∈ pre, c.isDigit = false)
    (hl : ∀ c, l.head? = some c → c.isDigit = true) :
    (pre ++ l).dropWhile (fun c => !(c.isDigit)) = l := by
  induction pre with
  | nil =>
    cases l with
    | nil => rfl
    | cons r rs =>
      have hr : r.isDigit = true := hl r rfl
      simp [List.dropWhile_cons, hr]
  | cons x xs ih =>
    have hx : x.isDigit = false := hpre x (by simp)
    simp [List.dropWhile_cons, hx, ih (fun c hc => hpre c (by simp [hc]))]

/-- The digit scan stops at the first non-digit after the run. -/
lemma takeWhile_digit_append (run post : List Char)
    (hrun : ∀ c ∈ run, c.isDigit = true)
    (hpost : ∀ c, post.head? = some c → c.isDigit = false) :
    (run ++ post).takeWhile (fun c => c.isDigit) = run := by
  induction run with
  | nil =>
    cases post with
    | nil => rfl
    | cons p ps =>
      have hp : p.isDigit = false := hpost p rfl
      simp [List.takeWhile_cons, hp]
  | cons r rs ih =>
    have hr : r.isDigit = true := hrun r (by simp)
    simp [List.takeWhile_cons, hr, ih (fun c hc => hrun c (by simp [hc]))]

/-- C6: the button-index parser returns the first run of digits found
anywhere in the id as a non-negative integer and none when no digit
exists; the four quoted examples evaluate accordingly. -/
theorem C6_getButtonIndex :
    (∀ id : List Char, (∀ c ∈ id, c.isDigit = false) → getButtonIndex id = none) ∧
    (∀ pre run post : List Char, (∀ c ∈ pre, c.isDigit = false) → run ≠ [] →
      (∀ c ∈ run, c.isDigit = true) → (∀ c, post.head? = some c → c.isDigit = false) →
      getButtonIndex (pre ++ run ++ post) = some (digitsToNat run)) ∧
    getButtonIndex (("deleteRuleButton-0").data) = some 0 ∧
    getButtonIndex (("deleteRuleButton-999").data) = some 999 ∧
    getButtonIndex (("deleteRuleButton-").data) = none ∧
    getButtonIndex (("").data) = none := by
  refine ⟨?_, ?_, by decide, by decide, by decide, by decide⟩
  · intro id h
    unfold getButtonIndex
    have hd : id.dropWhile (fun c => !(c.isDigit)) = [] :=
      List.dropWhile_eq_nil_iff.mpr (fun c hc => by rw [h c hc]; rfl)
    rw [hd]
    rfl
  · intro pre run post hpre hne hrun hpost
    obtain ⟨r, rs, hrr⟩ : ∃ r rs, run = r :: rs := by
      cases run with
      | nil => exact absurd rfl hne
      | cons r rs => exact ⟨r, rs, rfl⟩
    unfold getButtonIndex
    have hd : (pre ++ (run ++ post)).dropWhile (fun c => !(c.isDigit)) = run ++ post :=
      dropWhile_nondigit_append pre (run ++ post) hpre
        (fun c hc => by
          rw [hrr] at hc
          exact hrun c (by rw [hrr]; exact (by simpa using hc) ▸ List.mem_cons_self r rs))
    have ht : (run ++ post).takeWhile (fun c => c.isDigit) = run :=
      takeWhile_digit_append run post hrun hpost
    rw [List.append_assoc, hd, ht]
    rw [hrr]
    rfl

/-- Witness for C6: identifying the first digit run of a mixed id. -/
theorem C6_getButtonIndex_witness :
    getButtonIndex ((("ab").data ++ ("12").data ++ ("cd").data)) =
      some (digitsToNat (("12").data)) :=
  (C6_getButtonIndex).2.1 (("ab").data) (("12").data) (("cd").data)
    (by decide) (by decide) (by decide) (by decide)

/-- On terminator-free text the greedy `.+` takes everything. -/
lemma takeNonTerm_of_no_term (l : List Char) (h : ∀ c ∈ l, isLineTerm c = false) :
    takeNonTerm l = l := by
  induction l with
  | nil => rfl
  | cons c cs ih =>
    have hc : isLineTerm c = false := h c (by simp)
    simp [takeNonTerm, hc, ih (fun x hx => h x (by simp [hx]))]

/-- The text after the first double slash consists of characters of the
input. -/
lemma afterDoubleSlash_mem : ∀ l r : List Char, afterDoubleSlash l = some r →
    ∀ c ∈ r, c ∈ l := by
  intro l
  induction l with
  | nil => intro r h; exact absurd h (by simp [afterDoubleSlash])
  | cons c cs ih =>
    intro r h x hx
    by_cases hc : c = '/'
    · cases cs with
      | nil => simp [afterDoubleSlash, hc] at h
      | cons d ds =>
        by_cases hd : d = '/'
        · have hr : ds = r := by simpa [afterDoubleSlash, hc, hd] using h
          subst hr
          simp [List.mem_cons_of_mem, hx]
        · have h' : afterDoubleSlash (d :: ds) = some r := by
            simpa [afterDoubleSlash, hc, hd] using h
          exact List.mem_cons_of_mem c (ih r h' x hx)
    · have h' : afterDoubleSlash cs = some r := by
        simpa [afterDoubleSlash, hc] using h
      exact List.mem_cons_of_mem c (ih r h' x hx)

/-- One scanning step of the double-slash search, on a head that is not
a slash. -/
lemma afterDoubleSlash_cons_ne (c : Char) (cs : List Char) (hc : c ≠ '/') :
    afterDoubleSlash (c :: cs) = afterDoubleSlash cs := by
  simp [afterDoubleSlash, hc]

/-- One scanning step of the double-slash search, on a slash followed by
a non-slash. -/
lemma afterDoubleSlash_slash_cons_ne (d : Char) (ds : List Char) (hd : d ≠ '/') :
    afterDoubleSlash ('/' :: d :: ds) = afterDoubleSlash (d :: ds) := by
  simp [afterDoubleSlash, hd]

/-- The double-slash search succeeds on a leading double slash. -/
lemma afterDoubleSlash_double (ds : List Char) :
    afterDoubleSlash ('/' :: '/' :: ds) = some ds := rfl

/-- One scanning step of the protocol regex when the anchored condition
fails. -/
lemma firstMatchNoProto_step (c d e : Char) (rest : List Char)
    (h : (c == '/' && d == '/' && !(isLineTerm e)) = false) :
    firstMatchNoProto (c :: d :: e :: rest) = firstMatchNoProto (d :: e :: rest) := by
  simp [firstMatchNoProto, h]

/-- The protocol regex matches on a double slash followed by a
non-terminator character. -/
lemma firstMatchNoProto_hit (e : Char) (rest : List Char) (he : isLineTerm e = false) :
    firstMatchNoProto ('/' :: '/' :: e :: rest) = some (e :: takeNonTerm rest) := by
  simp [firstMatchNoProto, he]

/-- On terminator-free input whose first double slash (if any) is
followed by at least one character, the protocol regex matches exactly
the text after the first double slash. -/
lemma firstMatchNoProto_eq : ∀ l : List Char, (∀ c ∈ l, isLineTerm c = false) →
    afterDoubleSlash l ≠ some [] → firstMatchNoProto l = afterDoubleSlash l := by
  intro l
  induction l with
  | nil => intro _ _; rfl
  | cons c cs ih =>
    intro hterm h2
    cases cs with
    | nil =>
      by_cases hc : c = '/' <;> simp [firstMatchNoProto, afterDoubleSlash, hc]
    | cons d ds =>
      cases ds with
      | nil =>
        by_cases hc : c = '/'
        · by_cases hd : d = '/'
          · exact absurd (by simp [afterDoubleSlash, hc, hd]) h2
          · by_cases hd2 : d = '/' <;>
              simp [firstMatchNoProto, afterDoubleSlash, hc, hd]
        · by_cases hd : d = '/' <;>
            simp [firstMatchNoProto, afterDoubleSlash, hc, hd]
      | cons e rest =>
        have he : isLineTerm e = false := hterm e (by simp)
        have hterm2 : ∀ x ∈ d :: e :: rest, isLineTerm x = false :=
          fun x hx => hterm x (List.mem_cons_of_mem c hx)
        by_cases hc : c = '/'
        · by_cases hd : d = '/'
          · subst hc
            subst hd
            rw [firstMatchNoProto_hit e rest he, afterDoubleSlash_double,
              takeNonTerm_of_no_term rest (fun x hx => hterm x (by simp [hx]))]
          · subst hc
            have hstep := afterDoubleSlash_slash_cons_ne d (e :: rest) hd
            have h2' : afterDoubleSlash (d :: e :: rest) ≠ some [] :=
              fun heq => h2 (hstep.trans heq)
            rw [firstMatchNoProto_step '/' d e rest (by simp [hd]), hstep,
              ih hterm2 h2']
        · have hstep := afterDoubleSlash_cons_ne c (d :: e :: rest) hc
          have h2' : afterDoubleSlash (d :: e :: rest) ≠ some [] :=
            fun heq => h2 (hstep.trans heq)
          rw [firstMatchNoProto_step c d e rest (by simp [hc]), hstep,
            ih hterm2 h2']

/-- One step of the anchored lazy match on a non-terminator head not
followed by an immediate slash. -/
lemma tryAt_cons_cons (c y : Char) (t : List Char) (hc : isLineTerm c = false)
    (hy : y ≠ '/') :
    tryAt (c :: y :: t) = Option.map (fun r => c :: r) (tryAt (y :: t)) := by
  conv_lhs => rw [tryAt.eq_def]
  dsimp only
  rw [if_neg (by rw [hc]; exact Bool.false_ne_true)]
  rw [if_neg (show ¬((y :: t).head? = some '/') by simp [hy])]
  cases ht : tryAt (y :: t) with
  | none => rfl
  | some r => rfl

/-- One step of the before-slash scan on a non-slash head. -/
lemma beforeSlash_cons_ne (c : Char) (cs : List Char) (hc : c ≠ '/') :
    beforeSlash (c :: cs) = Option.map (fun r => c :: r) (beforeSlash cs) := by
  conv_lhs => rw [beforeSlash.eq_def]
  dsimp only
  rw [if_neg hc]
  cases hb : beforeSlash cs with
  | none => rfl
  | some r => rfl

/-- On terminator-free text not starting with a slash, the anchored
lazy match coincides with taking everything before the first slash. -/
lemma tryAt_eq_beforeSlash : ∀ l : List Char, (∀ c ∈ l, isLineTerm c = false) →
    l.head? ≠ some '/' → tryAt l = beforeSlash l := by
  intro l
  induction l with
  | nil => intro _ _; rfl
  | cons c cs ih =>
    intro hterm hhead
    have hc : isLineTerm c = false := hterm c (by simp)
    have hcs : c ≠ '/' := fun he => hhead (by simp [he])
    cases cs with
    | nil => simp [tryAt, beforeSlash, hc, hcs]
    | cons y t =>
      by_cases hy : y = '/'
      · subst hy
        simp [tryAt, beforeSlash, hc, hcs]
      · have hrec : tryAt (y :: t) = beforeSlash (y :: t) :=
          ih (fun x hx => hterm x (by simp [hx])) (by simp [hy])
        rw [tryAt_cons_cons c y t hc hy, beforeSlash_cons_ne c (y :: t) hcs, hrec]

/-- A failed anchored match on a non-terminator head forces failure one
position further. -/
lemma tryAt_cons_none (c : Char) (cs : List Char) (hc : isLineTerm c = false)
    (h : tryAt (c :: cs) = none) : tryAt cs = none := by
  rw [tryAt.eq_def] at h
  dsimp only at h
  rw [if_neg (by rw [hc]; exact Bool.false_ne_true)] at h
  by_cases hh : cs.head? = some '/'
  · rw [if_pos hh] at h
    exact absurd h (by simp)
  · rw [if_neg hh] at h
    cases ht : tryAt cs with
    | none => rfl
    | some r =>
      rw [ht] at h
      exact absurd h (by simp)

/-- When no position of terminator-free text admits an anchored match,
the scanning match fails. -/
lemma firstMatchNoPath_none : ∀ l : List Char, (∀ c ∈ l, isLineTerm c = false) →
    tryAt l = none → firstMatchNoPath l = none := by
  intro l
  induction l with
  | nil => intro _ _; rfl
  | cons c cs ih =>
    intro hterm h
    have hc : isLineTerm c = false := hterm c (by simp)
    have h' : tryAt cs = none := tryAt_cons_none c cs hc h
    rw [firstMatchNoPath.eq_def]
    dsimp only
    rw [h]
    exact ih (fun x hx => hterm x (by simp [hx])) h'

/-- The anchored lazy match at the head of terminator-free text equals
the before-positive-slash scan. -/
lemma tryAt_cons_eq (c : Char) (cs : List Char)
    (hterm : ∀ x ∈ c :: cs, isLineTerm x = false) :
    tryAt (c :: cs) = beforePositiveSlash (c :: cs) := by
  have hc : isLineTerm c = false := hterm c (by simp)
  cases cs with
  | nil => simp [tryAt, beforePositiveSlash, beforeSlash, hc]
  | cons y t =>
    by_cases hy : y = '/'
    · subst hy
      simp [tryAt, beforePositiveSlash, beforeSlash, hc]
    · have hrec : tryAt (y :: t) = beforeSlash (y :: t) :=
        tryAt_eq_beforeSlash (y :: t) (fun x hx => hterm x (by simp [hx])) (by simp [hy])
      have hstep : beforePositiveSlash (c :: y :: t) =
          Option.map (fun r => c :: r) (beforeSlash (y :: t)) := by
        conv_lhs => rw [beforePositiveSlash.eq_def]
        dsimp only
        cases hb : beforeSlash (y :: t) with
        | none => rfl
        | some r => rfl
      rw [tryAt_cons_cons c y t hc hy, hrec, hstep]

/-- On terminator-free text the path regex computes exactly the
before-positive-slash scan. -/
lemma firstMatchNoPath_eq : ∀ l : List Char, (∀ c ∈ l, isLineTerm c = false) →
    firstMatchNoPath l = beforePositiveSlash l := by
  intro l
  induction l with
  | nil => intro _; rfl
  | cons c cs ih =>
    intro hterm
    have hce := tryAt_cons_eq c cs hterm
    cases ht : tryAt (c :: cs) with
    | some r =>
      rw [firstMatchNoPath.eq_def]
      dsimp only
      rw [ht]
      show some r = beforePositiveSlash (c :: cs)
      rw [← hce, ht]
    | none =>
      have hc : isLineTerm c = false := hterm c (by simp)
      have ht' : tryAt cs = none := tryAt_cons_none c cs hc ht
      rw [firstMatchNoPath.eq_def]
      dsimp only
      rw [ht]
      show firstMatchNoPath cs = beforePositiveSlash (c :: cs)
      rw [firstMatchNoPath_none cs (fun x hx => hterm x (by simp [hx])) ht', ← hce, ht]

/-- `getDomain` in fallback form: whichever regex fails, the fallback is
the original url. -/
lemma getDomain_eq (url : List Char) :
    getDomain url = (firstMatchNoPath ((firstMatchNoProto url).getD url)).getD url := by
  unfold getDomain
  cases h1 : firstMatchNoProto url with
  | none =>
    cases h2 : firstMatchNoPath url with
    | none => dsimp only; simp only [Option.getD_none]; rw [h2]; rfl
    | some s => dsimp only; simp only [Option.getD_none]; rw [h2]; rfl
  | some r =>
    cases h2 : firstMatchNoPath r with
    | none => dsimp only; simp only [Option.getD_some]; rw [h2]; rfl
    | some s => dsimp only; simp only [Option.getD_some]; rw [h2]; rfl

/-- C2 (counterexample): getDomain is not the composition of the spec's
stripProtocol and stripPath — on a protocol-qualified domain with no
trailing slash the path regex fails and the code falls back to the
whole original url instead of the protocol-stripped string. -/
theorem C2_counterexample :
    getDomain (("http://nickschorr.com").data) ≠
        stripPathSpec (stripProtocolSpec (("http://nickschorr.com").data)) ∧
      getDomain (("http://nickschorr.com").data) = (("http://nickschorr.com").data) ∧
      stripPathSpec (stripProtocolSpec (("http://nickschorr.com").data)) =
        (("nickschorr.com").data) := by
  decide

/-- C2 (amended): for terminator-free input whose first double slash (if
any) is followed by at least one character, getDomain equals the prefix
of the protocol-stripped string before its first slash occurring after
at least one character — and when no such slash exists the fallback is
the original input, not the protocol-stripped string; getDomain of the
empty string is the empty string. -/
theorem C2_getDomain_amended (l : List Char)
    (h1 : ∀ c ∈ l, isLineTerm c = false)
    (h2 : afterDoubleSlash l ≠ some []) :
    getDomain l = (beforePositiveSlash (stripProtocolSpec l)).getD l ∧
      getDomain ([] : List Char) = ([] : List Char) := by
  refine ⟨?_, rfl⟩
  have hsp : stripProtocolSpec l = (afterDoubleSlash l).getD l := by
    unfold stripProtocolSpec
    cases afterDoubleSlash l with
    | none => rfl
    | some r => rfl
  have htermt : ∀ c ∈ (afterDoubleSlash l).getD l, isLineTerm c = false := by
    cases ha : afterDoubleSlash l with
    | none => simpa using h1
    | some r =>
      intro c hc
      exact h1 c (afterDoubleSlash_mem l r ha c (by simpa using hc))
  rw [getDomain_eq, firstMatchNoProto_eq l h1 h2, hsp, firstMatchNoPath_eq _ htermt]

/-- Witness for C2's amended theorem on a well-formed url. -/
theorem C2_getDomain_amended_witness :
    (∀ c ∈ (("http://a.b/c").data), isLineTerm c = false) ∧
      getDomain (("http://a.b/c").data) =
        (beforePositiveSlash (stripProtocolSpec (("http://a.b/c").data))).getD
          (("http://a.b/c").data) :=
  ⟨by decide, (C2_getDomain_amended (("http://a.b/c").data) (by decide) (by decide)).1⟩

end Immobile
